import Mathlib

/-!
# Geographic median of a region (`main.go`)

A shallow embedding of the program's functions `medianIndex`, `calcHoriz`, `calcVerti`,
`medianPoint` and `drawCross`, followed by theorems about them.

Modelling conventions.

* Go `int` is the 64-bit signed integer type.  A value of type `int` is an `Int`; the sums
  of `medianIndex`, which run over arbitrary entries, and the sizes and arm ends computed
  by `drawCross` from an arbitrary point are reduced by `wrapInt` after every operation,
  as Go's arithmetic wraps.  Go's `/` on `int` truncates toward zero, which is `Int.tdiv`.
  The loop variables and the per-column and per-row counters, which stay within the
  extent of the grid, are left as they are.
* A slice `[]int` is a `List Int`; `append(s, v)` is `s ++ [v]`.  A position in a slice is
  a `Nat`, cast to `Int` where `medianPoint` adds it to the origin of the grid.
* `color.Color` is only ever observed through `RGBA()`, so a colour is the four
  channel values that method returns.
* `image.Image` is modelled by its two observers, `Bounds()` and `At(x, y)`.  `At` is
  total, as in Go: it may be called at any coordinates, inside or outside the bounds.
* A counting loop `for x := lo; x < hi; x++ { body }` is `forLoop lo hi body`: the guard
  `x < hi` is tested before every iteration, and the recursion is structural on a
  counter that starts at `hi - lo`, the exact number of iterations
  (`forLoopAux_fuel` shows that the counter never cuts a loop short).
-/

namespace Geomedian

/-! ## Data model -/

/-- Colour, as the four channel values returned by `RGBA()`. -/
structure Color where
  r : Nat
  g : Nat
  b : Nat
  a : Nat
deriving DecidableEq

/-- Counterpart of `image.Point`. -/
structure Point where
  X : Int
  Y : Int
deriving DecidableEq

/-- Counterpart of `image.Rectangle`: `Min` is inclusive, `Max` is exclusive. -/
structure Rectangle where
  Min : Point
  Max : Point
deriving DecidableEq

/-- Counterpart of `image.Image`: the bounds and the sample accessor. -/
structure Image where
  Bounds : Rectangle
  At : Int → Int → Color

/-! ## Loops -/

/-- Body of `for x := ...; x < hi; x++`, with `n` the iterations still allowed. -/
def forLoopAux {σ : Type} (body : Int → σ → σ) (hi : Int) : Nat → Int → σ → σ
  | 0, _, s => s
  | n + 1, x, s => if x < hi then forLoopAux body hi n (x + 1) (body x s) else s

/-- Loop `for x := lo; x < hi; x++ { s = body x s }`, returning the final state. -/
def forLoop {σ : Type} (lo hi : Int) (body : Int → σ → σ) (s : σ) : σ :=
  forLoopAux body hi (hi - lo).toNat lo s

/-! ## The program -/

/-- Result of an `int` operation whose exact value is `x`: the representative of `x`
modulo `2 ^ 64` in the range `[-2 ^ 63, 2 ^ 63)`. -/
def wrapInt (x : Int) : Int :=
  (x + 2 ^ 63) % 2 ^ 64 - 2 ^ 63

/-- Second pass of `medianIndex`: `k` is the position `range` is about to visit, `sum`
the running sum and `index` the current value of the variable `index`. -/
def medianScan (half : Int) : List Int → Nat → Int → Nat → Nat
  | [], _, _, index => index
  | val :: rest, k, sum, _ =>
      if wrapInt (sum + val) ≥ half then k
      else medianScan half rest (k + 1) (wrapInt (sum + val)) k

/-- Function `medianIndex` of `main.go`. -/
def medianIndex (values : List Int) : Nat :=
  let sum := values.foldl (fun sum val => wrapInt (sum + val)) 0
  let half := Int.tdiv sum 2
  medianScan half values 0 0 0

/-- The test `!(r == refR && g == refG && b == refB && a == refA)`. -/
def differs (c ref : Color) : Bool :=
  !(c.r == ref.r && c.g == ref.g && c.b == ref.b && c.a == ref.a)

/-- Function `calcHoriz` of `main.go`: one counter per column. -/
def calcHoriz (img : Image) (ref : Color) : List Int :=
  let bounds := img.Bounds
  forLoop bounds.Min.X bounds.Max.X (fun x horiz =>
    let sum := forLoop bounds.Min.Y bounds.Max.Y (fun y sum =>
      if differs (img.At x y) ref then sum + 1 else sum) (0 : Int)
    horiz ++ [sum]) []

/-- Function `calcVerti` of `main.go`: one counter per row. -/
def calcVerti (img : Image) (ref : Color) : List Int :=
  let bounds := img.Bounds
  forLoop bounds.Min.Y bounds.Max.Y (fun y verti =>
    let sum := forLoop bounds.Min.X bounds.Max.X (fun x sum =>
      if differs (img.At x y) ref then sum + 1 else sum) (0 : Int)
    verti ++ [sum]) []

/-- Function `medianPoint` of `main.go`. -/
def medianPoint (img : Image) : Point :=
  let refColor := img.At 0 0
  let horiz := calcHoriz img refColor
  let verti := calcVerti img refColor
  let bounds := img.Bounds
  let x := bounds.Min.X + (medianIndex horiz : Int)
  let y := bounds.Min.Y + (medianIndex verti : Int)
  { X := x, Y := y }

/-! ## The marker

`drawCross` calls three functions of Go's image packages.  `image.NewRGBA` and
`(*image.RGBA).Set` are modelled after the image package; whether the runtime can
allocate the pixel buffer, and the compositing done by `draw.Draw`, which rewrites the
samples of the destination and leaves its bounds alone, are taken as parameters. -/

/-- Membership test `Point{x, y}.In(r)` of the image package. -/
def Rectangle.contains (r : Rectangle) (x y : Int) : Bool :=
  decide (r.Min.X ≤ x) && decide (x < r.Max.X) && decide (r.Min.Y ≤ y) && decide (y < r.Max.Y)

/-- Function `image.NewRGBA`: a fresh image with the given bounds and all samples zero.
It panics, here `none`, when a side of the rectangle is negative or the length of the
pixel buffer, `4 * w * h` bytes, does not fit in `int` (`pixelBufferLength` and
`mul3NonNeg` of the image package: the products `4 * w` and `4 * w * h` are taken in 64
unsigned bits and the result must be a non-negative `int`), and when the buffer cannot
be allocated: `alloc n` tells whether `make([]uint8, n)` succeeds. -/
def NewRGBA (alloc : Int → Bool) (r : Rectangle) : Option Image :=
  let w := wrapInt (r.Max.X - r.Min.X)
  let h := wrapInt (r.Max.Y - r.Min.Y)
  if w < 0 ∨ h < 0 ∨ 2 ^ 64 ≤ 4 * w ∨ 2 ^ 64 ≤ 4 * w * h ∨ 2 ^ 63 ≤ 4 * w * h then none
  else if alloc (4 * w * h) then some { Bounds := r, At := fun _ _ => ⟨0, 0, 0, 0⟩ }
  else none

/-- Method `(*image.RGBA).Set`: a write outside the bounds is ignored. -/
def Image.Set (dst : Image) (x y : Int) (c : Color) : Image :=
  if dst.Bounds.contains x y then
    { dst with At := fun u v => if u = x ∧ v = y then c else dst.At u v }
  else dst

/-- The colour `color.Black`, as stored by `Set` and read back through `RGBA()`. -/
def Black : Color := ⟨0, 0, 0, 65535⟩

/-- Function `drawCross` of `main.go`.  `Draw dst r src sp` stands for the samples of
`dst` after `draw.Draw(dst, r, src, sp, draw.Over)`; `alloc` is passed on to `NewRGBA`.
The result is `none` when `image.NewRGBA` panics.  The sizes and the ends of the two arms
are `int` values, hence reduced by `wrapInt`. -/
def drawCross (alloc : Int → Bool)
    (Draw : Image → Rectangle → Image → Point → Int → Int → Color)
    (img : Image) (point : Point) : Option Image :=
  let bounds := img.Bounds
  match NewRGBA alloc bounds with
  | none => none
  | some dst =>
    let dst : Image := { dst with At := Draw dst bounds img { X := 0, Y := 0 } }
    let hSize := Int.tdiv (wrapInt (bounds.Max.X - bounds.Min.X)) 16
    let vSize := Int.tdiv (wrapInt (bounds.Max.Y - bounds.Min.Y)) 16
    let dst := forLoop (wrapInt (point.X - hSize)) (wrapInt (point.X + hSize))
      (fun x dst => dst.Set x point.Y Black) dst
    let dst := forLoop (wrapInt (point.Y - vSize)) (wrapInt (point.Y + vSize))
      (fun y dst => dst.Set point.X y Black) dst
    some dst

/-! ## Vocabulary of the specification -/

/-- Sum of the entries at positions `0, ..., i` (inclusive). -/
def cumSum (values : List Int) (i : Nat) : Int :=
  (values.take (i + 1)).sum

/-- The value of the variable `sum` after adding the entries of `l` to `s` one by one in
`int` arithmetic. -/
def runSum (s : Int) (l : List Int) : Int :=
  l.foldl (fun sum val => wrapInt (sum + val)) s

/-- Width of the grid. -/
def Image.width (img : Image) : Int :=
  img.Bounds.Max.X - img.Bounds.Min.X

/-- Height of the grid. -/
def Image.height (img : Image) : Int :=
  img.Bounds.Max.Y - img.Bounds.Min.Y

/-- A sample differs from the reference unless all four channels agree. -/
def sameChannels (c ref : Color) : Prop :=
  c.r = ref.r ∧ c.g = ref.g ∧ c.b = ref.b ∧ c.a = ref.a

instance (c ref : Color) : Decidable (sameChannels c ref) := by
  unfold sameChannels; infer_instance

/-- Number of rows of column `x` whose sample differs from `ref`. -/
def columnCount (img : Image) (ref : Color) (x : Int) : Nat :=
  ((Finset.Ico img.Bounds.Min.Y img.Bounds.Max.Y).filter
    (fun y => ¬ sameChannels (img.At x y) ref)).card

/-- Number of columns of row `y` whose sample differs from `ref`. -/
def rowCount (img : Image) (ref : Color) (y : Int) : Nat :=
  ((Finset.Ico img.Bounds.Min.X img.Bounds.Max.X).filter
    (fun x => ¬ sameChannels (img.At x y) ref)).card

/-- The in-bounds pixels that differ from `ref`. -/
def differing (img : Image) (ref : Color) : Finset (Int × Int) :=
  ((Finset.Ico img.Bounds.Min.X img.Bounds.Max.X) ×ˢ
    (Finset.Ico img.Bounds.Min.Y img.Bounds.Max.Y)).filter
    (fun p => ¬ sameChannels (img.At p.1 p.2) ref)

/-- The samples of the writable copy that `drawCross` starts from. -/
def copied (Draw : Image → Rectangle → Image → Point → Int → Int → Color) (img : Image) :
    Int → Int → Color :=
  Draw { Bounds := img.Bounds, At := fun _ _ => ⟨0, 0, 0, 0⟩ } img.Bounds img { X := 0, Y := 0 }

/-- Pixel `(x, y)` lies on the cross centred at `p` with arms `hSize` and `vSize`. -/
def onCross (p : Point) (hSize vSize : Int) (x y : Int) : Prop :=
  (y = p.Y ∧ p.X - hSize ≤ x ∧ x < p.X + hSize) ∨
  (x = p.X ∧ p.Y - vSize ≤ y ∧ y < p.Y + vSize)

instance (p : Point) (hSize vSize x y : Int) : Decidable (onCross p hSize vSize x y) := by
  unfold onCross; infer_instance

/-- Pixel `(x, y)` lies inside the bounds of the grid. -/
def inBounds (img : Image) (x y : Int) : Prop :=
  img.Bounds.Min.X ≤ x ∧ x < img.Bounds.Max.X ∧ img.Bounds.Min.Y ≤ y ∧ y < img.Bounds.Max.Y

instance (img : Image) (x y : Int) : Decidable (inBounds img x y) := by
  unfold inBounds; infer_instance

/-! ## Concrete grids used as examples -/

/-- White, opaque. -/
def white : Color := ⟨65535, 65535, 65535, 65535⟩

/-- Black, opaque. -/
def black : Color := ⟨0, 0, 0, 65535⟩

/-- The zero colour, which the standard image types return outside their bounds. -/
def transparent : Color := ⟨0, 0, 0, 0⟩

/-- Image with the given bounds whose in-bounds samples are given by `f`; outside the
bounds `At` returns the zero colour, as `image.RGBA` does. -/
def mkImage (minX minY maxX maxY : Int) (f : Int → Int → Color) : Image where
  Bounds := ⟨⟨minX, minY⟩, ⟨maxX, maxY⟩⟩
  At := fun x y =>
    if minX ≤ x ∧ x < maxX ∧ minY ≤ y ∧ y < maxY then f x y else transparent

/-- A 5×1 grid at the origin: two white pixels followed by three black ones. -/
def baseRow : Image :=
  mkImage 0 0 5 1 (fun x _ => if x < 2 then white else black)

/-- The grid `baseRow` moved one pixel to the right: bounds `[1,6) × [0,1)`. -/
def shiftedRow : Image :=
  mkImage 1 0 6 1 (fun x _ => if x < 3 then white else black)

/-- A 3×2 grid at the origin, white except for one black pixel at column 2, row 1. -/
def dotGrid : Image :=
  mkImage 0 0 3 2 (fun x y => if x = 2 ∧ y = 1 then black else white)

/-- A 2×3 grid with origin `(4, -1)`, white everywhere. -/
def plainGrid : Image :=
  mkImage 4 (-1) 6 2 (fun _ _ => white)

/-- A 32×16 white grid at the origin. -/
def wideGrid : Image :=
  mkImage 0 0 32 16 (fun _ _ => white)

/-- A 2^31 × 2^31 white grid at the origin; its RGBA buffer would take 2^64 bytes. -/
def hugeGrid : Image :=
  mkImage 0 0 2147483648 2147483648 (fun _ _ => white)

/-- A 32×16 white grid whose right edge is the largest `int`, `2^63 - 1`. -/
def edgeGrid : Image :=
  mkImage 9223372036854775775 0 9223372036854775807 16 (fun _ _ => white)

/-- A colour as an `image.RGBA` stores it and returns it through `RGBA()`: every 16-bit
channel `v` becomes `(v >> 8) * 0x101`. -/
def to8 (c : Color) : Color :=
  ⟨c.r / 256 * 257, c.g / 256 * 257, c.b / 256 * 257, c.a / 256 * 257⟩

/-- One value for the parameter `Draw`: the samples `draw.Draw(dst, r, src, sp, draw.Over)`
leaves in a destination whose samples are all zero.  Point `(x, y)` of `r`, if it lies in
`dst` and its source point `(x, y) - r.Min + sp` lies in `src`, receives the source sample
reduced to 8 bits per channel; every other sample is left alone. -/
def drawOver (dst : Image) (r : Rectangle) (src : Image) (sp : Point) : Int → Int → Color :=
  fun x y =>
    if r.contains x y && dst.Bounds.contains x y &&
        src.Bounds.contains (x - r.Min.X + sp.X) (y - r.Min.Y + sp.Y) then
      to8 (src.At (x - r.Min.X + sp.X) (y - r.Min.Y + sp.Y))
    else dst.At x y

/-- A runtime that can allocate every buffer whose length fits in `int`. -/
def allocAny (_n : Int) : Bool :=
  true

/-! ## Loops: the iteration counter is never what stops a loop -/

/-- When the counter reaches zero the guard `x < hi` is false as well. -/
theorem forLoopAux_fuel {σ : Type} (body : Int → σ → σ) (hi : Int) :
    ∀ (n : Nat) (x : Int) (s : σ), hi ≤ x + n →
      forLoopAux body hi (n + 1) x s = forLoopAux body hi n x s := by
  intro n
  induction n with
  | zero =>
    intro x s h
    have hx : ¬ x < hi := by simp at h; omega
    simp [forLoopAux, hx]
  | succ m ih =>
    intro x s h
    by_cases hx : x < hi
    · have h2 : hi ≤ (x + 1) + (m : Int) := by push_cast at h; omega
      have e := ih (x + 1) (body x s) h2
      rw [forLoopAux, if_pos hx, e]
      conv_rhs => rw [forLoopAux, if_pos hx]
    · rw [forLoopAux, if_neg hx]
      conv_rhs => rw [forLoopAux, if_neg hx]

/-- A loop over a non-empty range runs its body at `lo` and continues from `lo + 1`. -/
theorem forLoop_step {σ : Type} (lo hi : Int) (body : Int → σ → σ) (s : σ) (h : lo < hi) :
    forLoop lo hi body s = forLoop (lo + 1) hi body (body lo s) := by
  unfold forLoop
  have e : (hi - lo).toNat = (hi - (lo + 1)).toNat + 1 := by omega
  rw [e, forLoopAux, if_pos h]

/-- A loop over an empty range leaves the state alone. -/
theorem forLoop_done {σ : Type} (lo hi : Int) (body : Int → σ → σ) (s : σ) (h : hi ≤ lo) :
    forLoop lo hi body s = s := by
  unfold forLoop
  have e : (hi - lo).toNat = 0 := by omega
  rw [e, forLoopAux]

/-! ## The scan of `medianIndex` -/

theorem wrapInt_of_fits (x : Int) (h1 : -2 ^ 63 ≤ x) (h2 : x < 2 ^ 63) : wrapInt x = x := by
  unfold wrapInt
  omega

theorem wrapInt_add_wrapInt (a b : Int) : wrapInt (wrapInt a + b) = wrapInt (a + b) := by
  unfold wrapInt
  omega

theorem runSum_cons (s v : Int) (rest : List Int) :
    runSum s (v :: rest) = runSum (wrapInt (s + v)) rest :=
  rfl

/-- Adding in `int` arithmetic gives the exact sum reduced modulo `2 ^ 64`. -/
theorem runSum_wrapInt (l : List Int) :
    ∀ s : Int, runSum (wrapInt s) l = wrapInt (s + l.sum) := by
  induction l with
  | nil => intro s; simp [runSum]
  | cons v rest ih =>
    intro s
    rw [runSum_cons, wrapInt_add_wrapInt, ih (s + v), List.sum_cons, add_assoc]

theorem runSum_zero (l : List Int) : runSum 0 l = wrapInt l.sum := by
  have h := runSum_wrapInt l 0
  rw [wrapInt_of_fits 0 (by omega) (by omega), zero_add] at h
  exact h

theorem medianIndex_eq (values : List Int) :
    medianIndex values = medianScan (Int.tdiv (runSum 0 values) 2) values 0 0 0 :=
  rfl

theorem medianScan_ge (half : Int) :
    ∀ (l : List Int) (k : Nat) (s : Int) (idx : Nat), l ≠ [] →
      k ≤ medianScan half l k s idx := by
  intro l
  induction l with
  | nil => intro k s idx h; exact absurd rfl h
  | cons v rest ih =>
    intro k s idx _
    unfold medianScan
    split
    · exact le_rfl
    · cases rest with
      | nil => simp [medianScan]
      | cons w rest2 =>
        have := ih (k + 1) (wrapInt (s + v)) k (by simp)
        omega

theorem medianScan_lt (half : Int) :
    ∀ (l : List Int) (k : Nat) (s : Int) (idx : Nat), l ≠ [] →
      medianScan half l k s idx < k + l.length := by
  intro l
  induction l with
  | nil => intro k s idx h; exact absurd rfl h
  | cons v rest ih =>
    intro k s idx _
    unfold medianScan
    split
    · simp
    · cases rest with
      | nil => simp [medianScan]
      | cons w rest2 =>
        have := ih (k + 1) (wrapInt (s + v)) k (by simp)
        simp only [List.length_cons] at this ⊢
        omega

/-- Every position the scan walked past had a running sum below `half`. -/
theorem medianScan_below (half : Int) :
    ∀ (l : List Int) (k : Nat) (s : Int) (idx : Nat) (j : Nat), j < l.length →
      k + j < medianScan half l k s idx → runSum s (l.take (j + 1)) < half := by
  intro l
  induction l with
  | nil => intro k s idx j hj; simp at hj
  | cons v rest ih =>
    intro k s idx j hj hlt
    unfold medianScan at hlt
    split at hlt
    · omega
    · rename_i hnot
      cases j with
      | zero =>
        simp only [zero_add, List.take_succ_cons, List.take_zero, runSum_cons]
        simp only [runSum, List.foldl_nil]
        omega
      | succ j2 =>
        have hj2 : j2 < rest.length := by simpa using hj
        have := ih (k + 1) (wrapInt (s + v)) k j2 hj2 (by omega)
        rw [List.take_succ_cons, runSum_cons]
        exact this

/-- If some running sum reaches `half`, so does the one at the returned position. -/
theorem medianScan_reach (half : Int) :
    ∀ (l : List Int) (k : Nat) (s : Int) (idx : Nat),
      (∃ j, j < l.length ∧ half ≤ runSum s (l.take (j + 1))) →
      half ≤ runSum s (l.take (medianScan half l k s idx - k + 1)) := by
  intro l
  induction l with
  | nil => intro k s idx h; obtain ⟨j, hj, _⟩ := h; simp at hj
  | cons v rest ih =>
    intro k s idx h
    unfold medianScan
    split
    · rename_i hge
      simp only [Nat.sub_self, zero_add, List.take_succ_cons, List.take_zero, runSum_cons]
      simp only [runSum, List.foldl_nil]
      exact hge
    · rename_i hnot
      obtain ⟨j, hj, hreach⟩ := h
      cases j with
      | zero =>
        simp only [zero_add, List.take_succ_cons, List.take_zero, runSum_cons] at hreach
        simp only [runSum, List.foldl_nil] at hreach
        exact absurd hreach hnot
      | succ j2 =>
        have hj2 : j2 < rest.length := by simpa using hj
        have hne : rest ≠ [] := by intro e; simp [e] at hj2
        have hreach2 : half ≤ runSum (wrapInt (s + v)) (rest.take (j2 + 1)) := by
          rw [List.take_succ_cons, runSum_cons] at hreach
          exact hreach
        have h1 := ih (k + 1) (wrapInt (s + v)) k ⟨j2, hj2, hreach2⟩
        have h2 := medianScan_ge half rest (k + 1) (wrapInt (s + v)) k hne
        have e : medianScan half rest (k + 1) (wrapInt (s + v)) k - k + 1
            = (medianScan half rest (k + 1) (wrapInt (s + v)) k - (k + 1) + 1) + 1 := by
          omega
        rw [e, List.take_succ_cons, runSum_cons]
        exact h1

/-- If no running sum reaches `half`, the scan ends at the last position. -/
theorem medianScan_exhaust (half : Int) :
    ∀ (l : List Int) (k : Nat) (s : Int) (idx : Nat), l ≠ [] →
      (∀ j, j < l.length → runSum s (l.take (j + 1)) < half) →
      medianScan half l k s idx = k + l.length - 1 := by
  intro l
  induction l with
  | nil => intro k s idx h; exact absurd rfl h
  | cons v rest ih =>
    intro k s idx _ hall
    have h0 := hall 0 (by simp)
    simp only [zero_add, List.take_succ_cons, List.take_zero, runSum_cons] at h0
    simp only [runSum, List.foldl_nil] at h0
    unfold medianScan
    rw [if_neg (by omega)]
    cases rest with
    | nil => simp [medianScan]
    | cons w rest2 =>
      rw [ih (k + 1) (wrapInt (s + v)) k (by simp)]
      · simp only [List.length_cons]; omega
      · intro j hj
        have := hall (j + 1) (by simpa using hj)
        rw [List.take_succ_cons, runSum_cons] at this
        exact this

theorem foldl_add_eq_sum (values : List Int) :
    values.foldl (fun sum val => sum + val) 0 = values.sum :=
  List.sum_eq_foldl.symm

theorem sum_nonneg_of_nonneg (l : List Int) (h : ∀ v ∈ l, 0 ≤ v) : 0 ≤ l.sum :=
  List.sum_nonneg h

theorem tdiv_two_eq (t : Int) (h : 0 ≤ t) : Int.tdiv t 2 = t / 2 := by
  rw [Int.div_def]
  exact Int.tdiv_eq_ediv h (by decide)


/-! ## Counting loops and collecting loops -/

theorem Ico_eq_insert (lo hi : Int) (h : lo < hi) :
    Finset.Ico lo hi = insert lo (Finset.Ico (lo + 1) hi) := by
  ext y
  simp only [Finset.mem_Ico, Finset.mem_insert]
  omega

/-- A loop that bumps a counter whenever `p y` holds counts the `y` of the range. -/
theorem forLoop_count (p : Int → Bool) (hi : Int) :
    ∀ (n : Nat) (lo : Int) (s : Int), (hi - lo).toNat = n →
      forLoop lo hi (fun y sum => if p y then sum + 1 else sum) s
        = s + (((Finset.Ico lo hi).filter (fun y => p y = true)).card : Int) := by
  intro n
  induction n with
  | zero =>
    intro lo s hn
    have hle : hi ≤ lo := by omega
    rw [forLoop_done _ _ _ _ hle, Finset.Ico_eq_empty (by omega)]
    simp
  | succ m ih =>
    intro lo s hn
    have hlt : lo < hi := by omega
    rw [forLoop_step _ _ _ _ hlt, ih (lo + 1) _ (by omega), Ico_eq_insert lo hi hlt,
      Finset.filter_insert]
    by_cases hp : p lo = true
    · rw [if_pos hp, if_pos hp, Finset.card_insert_of_not_mem (by simp)]
      push_cast
      ring
    · rw [if_neg hp, if_neg hp]

/-- A loop that appends `f x` collects the values of `f` over the range, in order. -/
theorem forLoop_collect (f : Int → Int) (hi : Int) :
    ∀ (n : Nat) (lo : Int) (s : List Int), (hi - lo).toNat = n →
      forLoop lo hi (fun x acc => acc ++ [f x]) s
        = s ++ (List.range n).map (fun (k : Nat) => f (lo + (k : Int))) := by
  intro n
  induction n with
  | zero =>
    intro lo s hn
    rw [forLoop_done _ _ _ _ (by omega)]
    simp
  | succ m ih =>
    intro lo s hn
    have hlt : lo < hi := by omega
    rw [forLoop_step _ _ _ _ hlt, ih (lo + 1) _ (by omega), List.range_succ_eq_map]
    simp only [List.map_cons, List.map_map, List.append_assoc, List.singleton_append,
      Nat.cast_zero, add_zero]
    congr 2
    apply List.map_congr_left
    intro k _
    simp only [Function.comp_apply, Nat.cast_succ]
    congr 1
    ring

theorem differs_iff (c ref : Color) : differs c ref = true ↔ ¬ sameChannels c ref := by
  simp [differs, sameChannels]
  tauto

theorem calcHoriz_eq (img : Image) (ref : Color) :
    calcHoriz img ref = (List.range img.width.toNat).map
      (fun (k : Nat) => (columnCount img ref (img.Bounds.Min.X + (k : Int)) : Int)) := by
  have inner : ∀ x, forLoop img.Bounds.Min.Y img.Bounds.Max.Y
      (fun y sum => if differs (img.At x y) ref then sum + 1 else sum) (0 : Int)
      = (columnCount img ref x : Int) := by
    intro x
    rw [forLoop_count (fun y => differs (img.At x y) ref) _ _ _ _ rfl]
    simp only [differs_iff, zero_add, columnCount]
  simp only [calcHoriz, inner]
  rw [forLoop_collect (fun x => (columnCount img ref x : Int)) _ _ _ _ rfl]
  simp [Image.width]

theorem calcVerti_eq (img : Image) (ref : Color) :
    calcVerti img ref = (List.range img.height.toNat).map
      (fun (k : Nat) => (rowCount img ref (img.Bounds.Min.Y + (k : Int)) : Int)) := by
  have inner : ∀ y, forLoop img.Bounds.Min.X img.Bounds.Max.X
      (fun x sum => if differs (img.At x y) ref then sum + 1 else sum) (0 : Int)
      = (rowCount img ref y : Int) := by
    intro y
    rw [forLoop_count (fun x => differs (img.At x y) ref) _ _ _ _ rfl]
    simp only [differs_iff, zero_add, rowCount]
  simp only [calcVerti, inner]
  rw [forLoop_collect (fun y => (rowCount img ref y : Int)) _ _ _ _ rfl]
  simp [Image.height]


/-! ## `medianIndex` on non-negative sequences -/

theorem cumSum_last (values : List Int) (hne : values ≠ []) :
    cumSum values (values.length - 1) = values.sum := by
  have hlen : 0 < values.length := List.length_pos.mpr hne
  unfold cumSum
  rw [Nat.sub_add_cancel hlen, List.take_length]

theorem half_le_total (t : Int) (h : 0 ≤ t) : Int.tdiv t 2 ≤ t := by
  rw [tdiv_two_eq t h]
  omega

/-- The first entries of a non-negative sequence sum to at most the total. -/
theorem sum_take_le (l : List Int) (hnn : ∀ v ∈ l, 0 ≤ v) (n : Nat) :
    (l.take n).sum ≤ l.sum := by
  have h1 := List.sum_take_add_sum_drop l n
  have h2 : 0 ≤ (l.drop n).sum :=
    List.sum_nonneg (fun v hv => hnn v (List.mem_of_mem_drop hv))
  omega

/-- On a non-negative sequence whose total fits in `int` the first pass does not wrap. -/
theorem runSum_of_fits (l : List Int) (hnn : ∀ v ∈ l, 0 ≤ v) (hfit : l.sum < 2 ^ 63) :
    runSum 0 l = l.sum := by
  rw [runSum_zero]
  exact wrapInt_of_fits _ (by have := sum_nonneg_of_nonneg l hnn; omega) hfit

/-- On such a sequence the running sums of the second pass do not wrap either. -/
theorem runSum_take_of_fits (l : List Int) (hnn : ∀ v ∈ l, 0 ≤ v) (hfit : l.sum < 2 ^ 63)
    (j : Nat) : runSum 0 (l.take (j + 1)) = cumSum l j := by
  unfold cumSum
  apply runSum_of_fits
  · intro v hv
    exact hnn v (List.mem_of_mem_take hv)
  · have := sum_take_le l hnn (j + 1)
    omega

/-- On a non-empty sequence the returned position is inside the sequence. -/
theorem medianIndex_lt_length (values : List Int) (hne : values ≠ []) :
    medianIndex values < values.length := by
  rw [medianIndex_eq]
  simpa using medianScan_lt (Int.tdiv (runSum 0 values) 2) values 0 0 0 hne

/-- Positions before the returned one have a running sum below `half`. -/
theorem medianIndex_below (values : List Int) (hnn : ∀ v ∈ values, 0 ≤ v)
    (hfit : values.sum < 2 ^ 63) (j : Nat) (hj : j < medianIndex values) :
    cumSum values j < Int.tdiv values.sum 2 := by
  by_cases hne : values = []
  · subst hne
    simp [medianIndex, medianScan] at hj
  · have hlt := medianIndex_lt_length values hne
    rw [medianIndex_eq] at hj hlt
    have := medianScan_below (Int.tdiv (runSum 0 values) 2) values 0 0 0 j (by omega)
      (by omega)
    rw [runSum_take_of_fits values hnn hfit, runSum_of_fits values hnn hfit] at this
    exact this

/-- On a non-negative sequence the running sum at the returned position reaches `half`. -/
theorem medianIndex_reach (values : List Int) (hne : values ≠ [])
    (hnn : ∀ v ∈ values, 0 ≤ v) (hfit : values.sum < 2 ^ 63) :
    Int.tdiv values.sum 2 ≤ cumSum values (medianIndex values) := by
  have hlen : 0 < values.length := List.length_pos.mpr hne
  have hrun := runSum_of_fits values hnn hfit
  have hex : ∃ j, j < values.length ∧
      Int.tdiv (runSum 0 values) 2 ≤ runSum 0 (values.take (j + 1)) := by
    refine ⟨values.length - 1, by omega, ?_⟩
    rw [runSum_take_of_fits values hnn hfit, cumSum_last values hne, hrun]
    exact half_le_total _ (sum_nonneg_of_nonneg values hnn)
  have := medianScan_reach (Int.tdiv (runSum 0 values) 2) values 0 0 0 hex
  rw [Nat.sub_zero, runSum_take_of_fits values hnn hfit, hrun] at this
  rw [medianIndex_eq, hrun]
  exact this

/-- A non-negative sequence of total at most one sends `medianIndex` to position 0. -/
theorem medianIndex_eq_zero_of_sum_le_one (values : List Int)
    (hnn : ∀ v ∈ values, 0 ≤ v) (hsum : values.sum ≤ 1) : medianIndex values = 0 := by
  rw [medianIndex_eq, runSum_of_fits values hnn (by omega)]
  have h0 := sum_nonneg_of_nonneg values hnn
  have hhalf : Int.tdiv values.sum 2 = 0 := by
    rw [tdiv_two_eq _ h0]
    omega
  rw [hhalf]
  cases values with
  | nil => rfl
  | cons v rest =>
    have hv : 0 ≤ v := hnn v (by simp)
    have hrest : 0 ≤ rest.sum :=
      sum_nonneg_of_nonneg rest (fun w hw => hnn w (List.mem_cons_of_mem v hw))
    rw [List.sum_cons] at hsum
    unfold medianScan
    rw [zero_add, wrapInt_of_fits v (by omega) (by omega), if_pos hv]


/-! ## Claims about `medianIndex` -/

/-- C1 (counterexample): `[2^63 - 1, 2^63 - 1, 2]` is a non-empty sequence of non-negative
`int` values.  Its total `2^64` wraps to 0 in the first pass, so `half` is 0 and
`medianIndex` returns 0; the inclusive running sum at position 0 is `2^63 - 1`, below half
of the sum of all entries, `2^63`, which is first reached at position 1. -/
theorem medianIndex_least_index_counterexample :
    ([9223372036854775807, 9223372036854775807, 2] : List Int) ≠ [] ∧
    (∀ v ∈ ([9223372036854775807, 9223372036854775807, 2] : List Int),
      0 ≤ v ∧ v ≤ 9223372036854775807) ∧
    medianIndex [9223372036854775807, 9223372036854775807, 2] = 0 ∧
    ¬ (([9223372036854775807, 9223372036854775807, 2] : List Int).sum / 2
        ≤ cumSum [9223372036854775807, 9223372036854775807, 2]
            (medianIndex [9223372036854775807, 9223372036854775807, 2])) ∧
    ([9223372036854775807, 9223372036854775807, 2] : List Int).sum / 2
        ≤ cumSum [9223372036854775807, 9223372036854775807, 2] 1 := by
  decide

/-- C1 (amended): on a non-empty sequence of non-negative integers whose sum is below
`2^63`, so that no sum wraps in `int`, `medianIndex` returns the least position whose
inclusive running sum is at least `total / 2` (integer division of the sum of all
entries): the position is inside the sequence, its running sum reaches the threshold, and
no earlier running sum does.  In particular `medianIndex [5,0,0,0,5] = 0`. -/
theorem medianIndex_least_index (values : List Int) (hne : values ≠ [])
    (hnn : ∀ v ∈ values, 0 ≤ v) (hfit : values.sum < 2 ^ 63) :
    (medianIndex values < values.length ∧
      values.sum / 2 ≤ cumSum values (medianIndex values) ∧
      ∀ j, j < medianIndex values → cumSum values j < values.sum / 2) ∧
    medianIndex [5, 0, 0, 0, 5] = 0 := by
  have hT := sum_nonneg_of_nonneg values hnn
  have hhalf := tdiv_two_eq values.sum hT
  refine ⟨⟨medianIndex_lt_length values hne, ?_, ?_⟩, by decide⟩
  · rw [← hhalf]
    exact medianIndex_reach values hne hnn hfit
  · intro j hj
    rw [← hhalf]
    exact medianIndex_below values hnn hfit j hj

theorem medianIndex_least_index_witness :
    (([1, 2, 0, 3] : List Int) ≠ [] ∧ (∀ v ∈ ([1, 2, 0, 3] : List Int), 0 ≤ v) ∧
      ([1, 2, 0, 3] : List Int).sum < 2 ^ 63) ∧
    ((medianIndex [1, 2, 0, 3] < ([1, 2, 0, 3] : List Int).length ∧
      ([1, 2, 0, 3] : List Int).sum / 2 ≤ cumSum [1, 2, 0, 3] (medianIndex [1, 2, 0, 3]) ∧
      ∀ j, j < medianIndex [1, 2, 0, 3] →
        cumSum [1, 2, 0, 3] j < ([1, 2, 0, 3] : List Int).sum / 2) ∧
    medianIndex [5, 0, 0, 0, 5] = 0) :=
  ⟨⟨by decide, by decide, by decide⟩,
    medianIndex_least_index [1, 2, 0, 3] (by decide) (by decide) (by decide)⟩

/-- C2: on every non-empty sequence of integers, of either sign, `medianIndex` returns a
position `i` with `0 ≤ i ≤ len - 1`; it never returns a position `≥ len`. -/
theorem medianIndex_in_range (values : List Int) (hne : values ≠ []) :
    (0 : Int) ≤ (medianIndex values : Int) ∧
    (medianIndex values : Int) ≤ (values.length : Int) - 1 ∧
    ¬ (values.length ≤ medianIndex values) := by
  have := medianIndex_lt_length values hne
  omega

theorem medianIndex_in_range_witness :
    ([-4, 7, -9] : List Int) ≠ [] ∧
    ((0 : Int) ≤ (medianIndex [-4, 7, -9] : Int) ∧
    (medianIndex [-4, 7, -9] : Int) ≤ (([-4, 7, -9] : List Int).length : Int) - 1 ∧
    ¬ (([-4, 7, -9] : List Int).length ≤ medianIndex [-4, 7, -9])) :=
  ⟨by decide, medianIndex_in_range [-4, 7, -9] (by decide)⟩

/-- C8 (counterexample): on `[2^63 - 1, 2^63 - 1, 2]`, non-empty and non-negative, the
total wraps to 0 and `medianIndex` returns 0; the entries strictly after position 0 sum to
`2^63 + 1`, more than `T - ⌊T/2⌋ = 2^63` for the total `T = 2^64`. -/
theorem medianIndex_splits_mass_counterexample :
    ([9223372036854775807, 9223372036854775807, 2] : List Int) ≠ [] ∧
    (∀ v ∈ ([9223372036854775807, 9223372036854775807, 2] : List Int),
      0 ≤ v ∧ v ≤ 9223372036854775807) ∧
    ¬ ((([9223372036854775807, 9223372036854775807, 2] : List Int).drop
          (medianIndex [9223372036854775807, 9223372036854775807, 2] + 1)).sum
        ≤ ([9223372036854775807, 9223372036854775807, 2] : List Int).sum
          - ([9223372036854775807, 9223372036854775807, 2] : List Int).sum / 2) := by
  decide

/-- C8 (amended): on a non-empty sequence of non-negative integers whose total `T` is
below `2^63`, so that no sum wraps in `int`, and with `i = medianIndex`, the entries
strictly before position `i` sum to at most `⌊T/2⌋` and the entries strictly after
position `i` sum to at most `T - ⌊T/2⌋ = ⌈T/2⌉`. -/
theorem medianIndex_splits_mass (values : List Int) (hne : values ≠ [])
    (hnn : ∀ v ∈ values, 0 ≤ v) (hfit : values.sum < 2 ^ 63) :
    (values.take (medianIndex values)).sum ≤ values.sum / 2 ∧
    (values.drop (medianIndex values + 1)).sum ≤ values.sum - values.sum / 2 := by
  have hT := sum_nonneg_of_nonneg values hnn
  have hhalf := tdiv_two_eq values.sum hT
  constructor
  · cases hi : medianIndex values with
    | zero =>
      simp only [List.take_zero, List.sum_nil]
      omega
    | succ j =>
      have := medianIndex_below values hnn hfit j (by omega)
      rw [hhalf] at this
      unfold cumSum at this
      omega
  · have hreach := medianIndex_reach values hne hnn hfit
    rw [hhalf] at hreach
    unfold cumSum at hreach
    have hsplit := List.sum_take_add_sum_drop values (medianIndex values + 1)
    omega

theorem medianIndex_splits_mass_witness :
    (([2, 0, 3, 1, 1] : List Int) ≠ [] ∧ (∀ v ∈ ([2, 0, 3, 1, 1] : List Int), 0 ≤ v) ∧
      ([2, 0, 3, 1, 1] : List Int).sum < 2 ^ 63) ∧
    ((([2, 0, 3, 1, 1] : List Int).take (medianIndex [2, 0, 3, 1, 1])).sum
        ≤ ([2, 0, 3, 1, 1] : List Int).sum / 2 ∧
      (([2, 0, 3, 1, 1] : List Int).drop (medianIndex [2, 0, 3, 1, 1] + 1)).sum
        ≤ ([2, 0, 3, 1, 1] : List Int).sum - ([2, 0, 3, 1, 1] : List Int).sum / 2) :=
  ⟨⟨by decide, by decide, by decide⟩,
    medianIndex_splits_mass [2, 0, 3, 1, 1] (by decide) (by decide) (by decide)⟩

/-- C9: for every `N ≥ 1`, `medianIndex` of the all-zero sequence of length `N` is 0. -/
theorem medianIndex_all_zero (N : Nat) (_hN : 1 ≤ N) :
    medianIndex (List.replicate N (0 : Int)) = 0 := by
  apply medianIndex_eq_zero_of_sum_le_one
  · intro v hv
    rw [List.eq_of_mem_replicate hv]
  · simp

theorem medianIndex_all_zero_witness :
    1 ≤ 4 ∧ medianIndex (List.replicate 4 (0 : Int)) = 0 :=
  ⟨by decide, medianIndex_all_zero 4 (by decide)⟩


/-! ## Projections -/

theorem sameChannels_iff_eq (c ref : Color) : sameChannels c ref ↔ c = ref := by
  cases c; cases ref
  simp [sameChannels]

theorem calcHoriz_length (img : Image) (ref : Color) :
    (calcHoriz img ref).length = img.width.toNat := by
  simp [calcHoriz_eq]

theorem calcVerti_length (img : Image) (ref : Color) :
    (calcVerti img ref).length = img.height.toNat := by
  simp [calcVerti_eq]

theorem calcHoriz_getElem? (img : Image) (ref : Color) (i : Nat) (h : i < img.width.toNat) :
    (calcHoriz img ref)[i]? = some (columnCount img ref (img.Bounds.Min.X + (i : Int)) : Int) := by
  simp [calcHoriz_eq, List.getElem?_map, List.getElem?_range h]

theorem calcVerti_getElem? (img : Image) (ref : Color) (j : Nat) (h : j < img.height.toNat) :
    (calcVerti img ref)[j]? = some (rowCount img ref (img.Bounds.Min.Y + (j : Int)) : Int) := by
  simp [calcVerti_eq, List.getElem?_map, List.getElem?_range h]

theorem calcHoriz_nonneg (img : Image) (ref : Color) : ∀ v ∈ calcHoriz img ref, 0 ≤ v := by
  intro v hv
  rw [calcHoriz_eq] at hv
  obtain ⟨k, _, rfl⟩ := List.mem_map.mp hv
  exact Int.natCast_nonneg _

theorem calcVerti_nonneg (img : Image) (ref : Color) : ∀ v ∈ calcVerti img ref, 0 ≤ v := by
  intro v hv
  rw [calcVerti_eq] at hv
  obtain ⟨k, _, rfl⟩ := List.mem_map.mp hv
  exact Int.natCast_nonneg _

/-- Summing a function over the positions of a range is summing it over the interval. -/
theorem sum_map_range_eq (g : Int → Int) (hi : Int) :
    ∀ (n : Nat) (lo : Int), (hi - lo).toNat = n →
      ((List.range n).map (fun (k : Nat) => g (lo + (k : Int)))).sum
        = ∑ x in Finset.Ico lo hi, g x := by
  intro n
  induction n with
  | zero =>
    intro lo hn
    rw [Finset.Ico_eq_empty (by omega)]
    simp
  | succ m ih =>
    intro lo hn
    have hlt : lo < hi := by omega
    rw [Ico_eq_insert lo hi hlt, Finset.sum_insert (by simp), ← ih (lo + 1) (by omega),
      List.range_succ_eq_map]
    simp only [List.map_cons, List.map_map, List.sum_cons, Nat.cast_zero, add_zero]
    congr 2
    apply List.map_congr_left
    intro k _
    simp only [Function.comp_apply, Nat.cast_succ]
    congr 1
    ring

/-- The column counters add up to the number of differing pixels. -/
theorem calcHoriz_sum (img : Image) (ref : Color) :
    (calcHoriz img ref).sum = ((differing img ref).card : Int) := by
  rw [calcHoriz_eq, Image.width, sum_map_range_eq (fun x => (columnCount img ref x : Int))
    img.Bounds.Max.X _ img.Bounds.Min.X rfl]
  unfold differing columnCount
  rw [Finset.card_filter, Finset.sum_product]
  push_cast
  apply Finset.sum_congr rfl
  intro x _
  rw [Finset.card_filter]
  push_cast
  rfl

/-- The row counters add up to the number of differing pixels. -/
theorem calcVerti_sum (img : Image) (ref : Color) :
    (calcVerti img ref).sum = ((differing img ref).card : Int) := by
  rw [calcVerti_eq, Image.height, sum_map_range_eq (fun y => (rowCount img ref y : Int))
    img.Bounds.Max.Y _ img.Bounds.Min.Y rfl]
  unfold differing rowCount
  rw [Finset.card_filter, Finset.sum_product_right]
  push_cast
  apply Finset.sum_congr rfl
  intro y _
  rw [Finset.card_filter]
  push_cast
  rfl


/-! ## Claims about the projections and `medianPoint` -/

/-- C3 (evaluation at a grid whose origin is not `(0, 0)`): `medianPoint` takes its
reference colour from `At(0, 0)`, not from the corner `(Min.X, Min.Y)`.  On `shiftedRow`
(bounds `[1,6) × [0,1)`) the sample at `(0, 0)` lies outside the grid and is the zero
colour, so every pixel counts and `medianPoint` is `(2, 0)`, whereas the projections
taken against the corner sample give `(3, 0)`. -/
theorem medianPoint_reference_off_origin :
    medianPoint shiftedRow = ⟨2, 0⟩ ∧
    shiftedRow.At 0 0 = transparent ∧
    shiftedRow.At shiftedRow.Bounds.Min.X shiftedRow.Bounds.Min.Y = white ∧
    (⟨shiftedRow.Bounds.Min.X + (medianIndex (calcHoriz shiftedRow
        (shiftedRow.At shiftedRow.Bounds.Min.X shiftedRow.Bounds.Min.Y)) : Int),
      shiftedRow.Bounds.Min.Y + (medianIndex (calcVerti shiftedRow
        (shiftedRow.At shiftedRow.Bounds.Min.X shiftedRow.Bounds.Min.Y)) : Int)⟩ : Point)
      = ⟨3, 0⟩ := by
  decide

/-- C4: for every grid of width at least 1 and every reference colour, `calcHoriz` returns
a sequence whose length is the width of the grid and whose `i`-th entry is the number of
rows `y` in `[Min.Y, Max.Y)` whose sample at `(Min.X + i, y)` does not agree with the
reference colour in all four channels. -/
theorem calcHoriz_counts (img : Image) (ref : Color) (hw : 1 ≤ img.width) :
    ((calcHoriz img ref).length : Int) = img.width ∧
    ∀ i : Nat, (i : Int) < img.width →
      (calcHoriz img ref)[i]? = some
        ((((Finset.Ico img.Bounds.Min.Y img.Bounds.Max.Y).filter
          (fun y => ¬ sameChannels (img.At (img.Bounds.Min.X + (i : Int)) y) ref)).card : Nat)
          : Int) := by
  constructor
  · rw [calcHoriz_length]
    omega
  · intro i hi
    exact calcHoriz_getElem? img ref i (by omega)

theorem calcHoriz_counts_witness :
    1 ≤ dotGrid.width ∧
    (((calcHoriz dotGrid white).length : Int) = dotGrid.width ∧
    ∀ i : Nat, (i : Int) < dotGrid.width →
      (calcHoriz dotGrid white)[i]? = some
        ((((Finset.Ico dotGrid.Bounds.Min.Y dotGrid.Bounds.Max.Y).filter
          (fun y => ¬ sameChannels (dotGrid.At (dotGrid.Bounds.Min.X + (i : Int)) y)
            white)).card : Nat) : Int)) :=
  ⟨by decide, calcHoriz_counts dotGrid white (by decide)⟩

/-- C5: for every grid of height at least 1 and every reference colour, `calcVerti` returns
a sequence whose length is the height of the grid and whose `j`-th entry is the number of
columns `x` in `[Min.X, Max.X)` whose sample at `(x, Min.Y + j)` does not agree with the
reference colour in all four channels. -/
theorem calcVerti_counts (img : Image) (ref : Color) (hh : 1 ≤ img.height) :
    ((calcVerti img ref).length : Int) = img.height ∧
    ∀ j : Nat, (j : Int) < img.height →
      (calcVerti img ref)[j]? = some
        ((((Finset.Ico img.Bounds.Min.X img.Bounds.Max.X).filter
          (fun x => ¬ sameChannels (img.At x (img.Bounds.Min.Y + (j : Int))) ref)).card : Nat)
          : Int) := by
  constructor
  · rw [calcVerti_length]
    omega
  · intro j hj
    exact calcVerti_getElem? img ref j (by omega)

theorem calcVerti_counts_witness :
    1 ≤ dotGrid.height ∧
    (((calcVerti dotGrid white).length : Int) = dotGrid.height ∧
    ∀ j : Nat, (j : Int) < dotGrid.height →
      (calcVerti dotGrid white)[j]? = some
        ((((Finset.Ico dotGrid.Bounds.Min.X dotGrid.Bounds.Max.X).filter
          (fun x => ¬ sameChannels (dotGrid.At x (dotGrid.Bounds.Min.Y + (j : Int)))
            white)).card : Nat) : Int)) :=
  ⟨by decide, calcVerti_counts dotGrid white (by decide)⟩


/-- In `dotGrid` the only pixel that differs from the corner sample is `(2, 1)`. -/
theorem dotGrid_single (x y : Int) (hx1 : 0 ≤ x) (hx2 : x < 3) (hy1 : 0 ≤ y) (hy2 : y < 2) :
    dotGrid.At x y ≠ dotGrid.At 0 0 ↔ x = 0 + 2 ∧ y = 0 + 1 := by
  interval_cases x <;> interval_cases y <;> decide

/-- A grid with at most one pixel differing from `ref` has both medians at position 0. -/
theorem medianIndex_of_card_le_one (img : Image) (ref : Color)
    (h : (differing img ref).card ≤ 1) :
    medianIndex (calcHoriz img ref) = 0 ∧ medianIndex (calcVerti img ref) = 0 := by
  constructor
  · apply medianIndex_eq_zero_of_sum_le_one _ (calcHoriz_nonneg img ref)
    rw [calcHoriz_sum]
    exact_mod_cast h
  · apply medianIndex_eq_zero_of_sum_le_one _ (calcVerti_nonneg img ref)
    rw [calcVerti_sum]
    exact_mod_cast h

/-- C6 (counterexample): in the 3×2 grid `dotGrid` the only pixel that differs from the
corner reference is at column 2, row 1, yet `medianIndex` of the horizontal projection is
0, not 2, `medianIndex` of the vertical projection is 0, not 1, and `medianPoint` is
`(0, 0)`, not `(2, 1)`. -/
theorem single_pixel_counterexample :
    (1 ≤ dotGrid.width ∧ 1 ≤ dotGrid.height ∧
      ∀ x y, dotGrid.Bounds.Min.X ≤ x → x < dotGrid.Bounds.Max.X →
        dotGrid.Bounds.Min.Y ≤ y → y < dotGrid.Bounds.Max.Y →
        (dotGrid.At x y ≠ dotGrid.At dotGrid.Bounds.Min.X dotGrid.Bounds.Min.Y ↔
          x = dotGrid.Bounds.Min.X + 2 ∧ y = dotGrid.Bounds.Min.Y + 1)) ∧
    medianIndex (calcHoriz dotGrid
      (dotGrid.At dotGrid.Bounds.Min.X dotGrid.Bounds.Min.Y)) ≠ 2 ∧
    medianIndex (calcVerti dotGrid
      (dotGrid.At dotGrid.Bounds.Min.X dotGrid.Bounds.Min.Y)) ≠ 1 ∧
    medianPoint dotGrid ≠ ⟨dotGrid.Bounds.Min.X + 2, dotGrid.Bounds.Min.Y + 1⟩ :=
  ⟨⟨by decide, by decide, dotGrid_single⟩, by decide, by decide, by decide⟩

/-- C6 (amended): for every non-empty grid whose sample at `(0, 0)` is its corner sample
and whose only pixel differing from the corner reference colour is at column `c`, row `r`,
`medianIndex` of the horizontal projection is 0, `medianIndex` of the vertical projection
is 0, and `medianPoint` returns the origin `(Min.X, Min.Y)`: the total mass is 1, so the
threshold `1 / 2 = 0` is already reached at the first position. -/
theorem single_pixel_median (img : Image) (c r : Int)
    (_hw : 1 ≤ img.width) (_hh : 1 ≤ img.height)
    (_hc : 0 ≤ c ∧ c < img.width) (_hr : 0 ≤ r ∧ r < img.height)
    (h00 : img.At 0 0 = img.At img.Bounds.Min.X img.Bounds.Min.Y)
    (hdot : ∀ x y, img.Bounds.Min.X ≤ x → x < img.Bounds.Max.X →
      img.Bounds.Min.Y ≤ y → y < img.Bounds.Max.Y →
      (img.At x y ≠ img.At img.Bounds.Min.X img.Bounds.Min.Y ↔
        x = img.Bounds.Min.X + c ∧ y = img.Bounds.Min.Y + r)) :
    medianIndex (calcHoriz img (img.At img.Bounds.Min.X img.Bounds.Min.Y)) = 0 ∧
    medianIndex (calcVerti img (img.At img.Bounds.Min.X img.Bounds.Min.Y)) = 0 ∧
    medianPoint img = ⟨img.Bounds.Min.X, img.Bounds.Min.Y⟩ := by
  have hcard : (differing img (img.At img.Bounds.Min.X img.Bounds.Min.Y)).card ≤ 1 := by
    have hsub : differing img (img.At img.Bounds.Min.X img.Bounds.Min.Y)
        ⊆ {(img.Bounds.Min.X + c, img.Bounds.Min.Y + r)} := by
      intro p hp
      simp only [differing, Finset.mem_filter, Finset.mem_product, Finset.mem_Ico,
        sameChannels_iff_eq] at hp
      obtain ⟨⟨⟨hx1, hx2⟩, hy1, hy2⟩, hne⟩ := hp
      have := (hdot p.1 p.2 hx1 hx2 hy1 hy2).mp hne
      simp only [Finset.mem_singleton]
      exact Prod.ext this.1 this.2
    simpa using Finset.card_le_card hsub
  have hmed := medianIndex_of_card_le_one img _ hcard
  refine ⟨hmed.1, hmed.2, ?_⟩
  simp only [medianPoint, h00, hmed.1, hmed.2]
  simp

theorem single_pixel_median_witness :
    (1 ≤ dotGrid.width ∧ 1 ≤ dotGrid.height ∧
      ((0 : Int) ≤ 2 ∧ (2 : Int) < dotGrid.width) ∧
      ((0 : Int) ≤ 1 ∧ (1 : Int) < dotGrid.height) ∧
      dotGrid.At 0 0 = dotGrid.At dotGrid.Bounds.Min.X dotGrid.Bounds.Min.Y) ∧
    (medianIndex (calcHoriz dotGrid
      (dotGrid.At dotGrid.Bounds.Min.X dotGrid.Bounds.Min.Y)) = 0 ∧
    medianIndex (calcVerti dotGrid
      (dotGrid.At dotGrid.Bounds.Min.X dotGrid.Bounds.Min.Y)) = 0 ∧
    medianPoint dotGrid = ⟨dotGrid.Bounds.Min.X, dotGrid.Bounds.Min.Y⟩) :=
  ⟨⟨by decide, by decide, by decide, by decide, by decide⟩,
    single_pixel_median dotGrid 2 1 (by decide) (by decide) (by decide) (by decide)
      (by decide) dotGrid_single⟩

/-- C7 (evaluation): `shiftedRow` is `baseRow` translated by `(1, 0)`: the bounds are
shifted by `(1, 0)` and the sample at `(x + 1, y + 0)` of `shiftedRow` is the sample at
`(x, y)` of `baseRow`, for all `x` and `y`.  Still `medianPoint` is `(2, 0)` on both, not
`(2 + 1, 0 + 0)` on the translated grid: the reference colour is read at `(0, 0)`, which
is the corner of `baseRow` but lies outside `shiftedRow`. -/
theorem medianPoint_translation_row :
    (shiftedRow.Bounds.Min = ⟨baseRow.Bounds.Min.X + 1, baseRow.Bounds.Min.Y + 0⟩ ∧
      shiftedRow.Bounds.Max = ⟨baseRow.Bounds.Max.X + 1, baseRow.Bounds.Max.Y + 0⟩ ∧
      ∀ x y, shiftedRow.At (x + 1) (y + 0) = baseRow.At x y) ∧
    medianPoint baseRow = ⟨2, 0⟩ ∧
    medianPoint shiftedRow = ⟨2, 0⟩ ∧
    medianPoint shiftedRow ≠ ⟨(medianPoint baseRow).X + 1, (medianPoint baseRow).Y + 0⟩ := by
  refine ⟨⟨by decide, by decide, ?_⟩, by decide, by decide, by decide⟩
  intro x y
  simp only [shiftedRow, baseRow, mkImage]
  split_ifs <;> first | rfl | omega

/-- C10: for every non-empty grid in which every in-bounds sample has the same colour `k`,
`calcHoriz grid k` is the all-zero sequence of length `width` and `calcVerti grid k` is the
all-zero sequence of length `height`. -/
theorem uniform_grid_projections (img : Image) (k : Color)
    (hw : 1 ≤ img.width) (hh : 1 ≤ img.height)
    (huni : ∀ x y, img.Bounds.Min.X ≤ x → x < img.Bounds.Max.X →
      img.Bounds.Min.Y ≤ y → y < img.Bounds.Max.Y → img.At x y = k) :
    (calcHoriz img k = List.replicate img.width.toNat 0 ∧
      ((calcHoriz img k).length : Int) = img.width) ∧
    (calcVerti img k = List.replicate img.height.toNat 0 ∧
      ((calcVerti img k).length : Int) = img.height) := by
  have hcol : ∀ i : Nat, i < img.width.toNat →
      columnCount img k (img.Bounds.Min.X + (i : Int)) = 0 := by
    intro i hi
    unfold Image.width at hi
    simp only [columnCount, Finset.card_eq_zero, Finset.filter_eq_empty_iff, Finset.mem_Ico,
      sameChannels_iff_eq, not_not]
    intro y hy
    exact huni _ y (by omega) (by omega) hy.1 hy.2
  have hrow : ∀ j : Nat, j < img.height.toNat →
      rowCount img k (img.Bounds.Min.Y + (j : Int)) = 0 := by
    intro j hj
    unfold Image.height at hj
    simp only [rowCount, Finset.card_eq_zero, Finset.filter_eq_empty_iff, Finset.mem_Ico,
      sameChannels_iff_eq, not_not]
    intro x hx
    exact huni x _ hx.1 hx.2 (by omega) (by omega)
  refine ⟨⟨?_, ?_⟩, ?_, ?_⟩
  · rw [calcHoriz_eq, List.eq_replicate_iff]
    refine ⟨by simp, ?_⟩
    intro v hv
    obtain ⟨i, hi, rfl⟩ := List.mem_map.mp hv
    rw [hcol i (List.mem_range.mp hi)]
    rfl
  · rw [calcHoriz_length]
    omega
  · rw [calcVerti_eq, List.eq_replicate_iff]
    refine ⟨by simp, ?_⟩
    intro v hv
    obtain ⟨j, hj, rfl⟩ := List.mem_map.mp hv
    rw [hrow j (List.mem_range.mp hj)]
    rfl
  · rw [calcVerti_length]
    omega

/-- Every in-bounds sample of `plainGrid` is white. -/
theorem plainGrid_uniform (x y : Int) (hx1 : 4 ≤ x) (hx2 : x < 6) (hy1 : -1 ≤ y)
    (hy2 : y < 2) : plainGrid.At x y = white := by
  simp [plainGrid, mkImage, hx1, hx2, hy1, hy2]

theorem uniform_grid_projections_witness :
    (1 ≤ plainGrid.width ∧ 1 ≤ plainGrid.height) ∧
    ((calcHoriz plainGrid white = List.replicate plainGrid.width.toNat 0 ∧
      ((calcHoriz plainGrid white).length : Int) = plainGrid.width) ∧
    (calcVerti plainGrid white = List.replicate plainGrid.height.toNat 0 ∧
      ((calcVerti plainGrid white).length : Int) = plainGrid.height)) :=
  ⟨⟨by decide, by decide⟩,
    uniform_grid_projections plainGrid white (by decide) (by decide) plainGrid_uniform⟩

/-! ## Further claims about `medianIndex` and the projections -/

/-- C11: for every non-empty grid (width ≥ 1, height ≥ 1) with arbitrary samples, the point
`(x, y)` returned by `medianPoint` lies inside the bounds of the grid:
`Min.X ≤ x < Max.X` and `Min.Y ≤ y < Max.Y`. -/
theorem medianPoint_in_bounds (img : Image) (hw : 1 ≤ img.width) (hh : 1 ≤ img.height) :
    (img.Bounds.Min.X ≤ (medianPoint img).X ∧ (medianPoint img).X < img.Bounds.Max.X) ∧
    (img.Bounds.Min.Y ≤ (medianPoint img).Y ∧ (medianPoint img).Y < img.Bounds.Max.Y) := by
  have hlenH := calcHoriz_length img (img.At 0 0)
  have hlenV := calcVerti_length img (img.At 0 0)
  have hneH : calcHoriz img (img.At 0 0) ≠ [] := by
    intro e
    rw [e] at hlenH
    simp at hlenH
    omega
  have hneV : calcVerti img (img.At 0 0) ≠ [] := by
    intro e
    rw [e] at hlenV
    simp at hlenV
    omega
  have hH := medianIndex_lt_length _ hneH
  have hV := medianIndex_lt_length _ hneV
  unfold Image.width at hw hlenH
  unfold Image.height at hh hlenV
  simp only [medianPoint]
  omega

theorem medianPoint_in_bounds_witness :
    (1 ≤ plainGrid.width ∧ 1 ≤ plainGrid.height) ∧
    ((plainGrid.Bounds.Min.X ≤ (medianPoint plainGrid).X ∧
      (medianPoint plainGrid).X < plainGrid.Bounds.Max.X) ∧
    (plainGrid.Bounds.Min.Y ≤ (medianPoint plainGrid).Y ∧
      (medianPoint plainGrid).Y < plainGrid.Bounds.Max.Y)) :=
  ⟨⟨by decide, by decide⟩, medianPoint_in_bounds plainGrid (by decide) (by decide)⟩

/-- Taking more entries of a non-negative sequence does not lower the sum. -/
theorem sum_take_mono (l : List Int) (hnn : ∀ v ∈ l, 0 ≤ v) (a b : Nat) (hab : a ≤ b) :
    (l.take a).sum ≤ (l.take b).sum := by
  have h1 := List.sum_take_add_sum_drop (l.take b) a
  rw [List.take_take, Nat.min_eq_left hab] at h1
  have h2 : 0 ≤ ((l.take b).drop a).sum := by
    apply List.sum_nonneg
    intro v hv
    exact hnn v (List.mem_of_mem_take (List.mem_of_mem_drop hv))
  omega

/-- In a palindrome the first `k` entries and the last `k` entries have the same sum. -/
theorem palindrome_take_sum (l : List Int) (hpal : l.reverse = l) (k : Nat) :
    (l.take k).sum = (l.drop (l.length - k)).sum := by
  have h : l.take k = (l.drop (l.length - k)).reverse := by
    conv_lhs => rw [← hpal]
    exact List.take_reverse
  rw [h, List.sum_reverse]

/-- C12 (counterexample): `[1, 2^63 - 1, 4, 2^63 - 1, 1]` is a non-empty palindrome of
non-negative `int` values of length 5.  Its total wraps to 4, so `half` is 2; the running
sums are `1`, `-2^63`, `-2^63 + 4`, `3`, and `medianIndex` returns 3, above
`(5 - 1) / 2 = 2`. -/
theorem medianIndex_palindrome_counterexample :
    ([1, 9223372036854775807, 4, 9223372036854775807, 1] : List Int) ≠ [] ∧
    (∀ v ∈ ([1, 9223372036854775807, 4, 9223372036854775807, 1] : List Int),
      0 ≤ v ∧ v ≤ 9223372036854775807) ∧
    ([1, 9223372036854775807, 4, 9223372036854775807, 1] : List Int).reverse
      = [1, 9223372036854775807, 4, 9223372036854775807, 1] ∧
    medianIndex [1, 9223372036854775807, 4, 9223372036854775807, 1] = 3 ∧
    ¬ (medianIndex [1, 9223372036854775807, 4, 9223372036854775807, 1]
        ≤ (([1, 9223372036854775807, 4, 9223372036854775807, 1] : List Int).length - 1) / 2)
    := by
  decide

/-- C12 (amended): on a non-empty palindromic sequence of non-negative integers of length
`n` whose sum is below `2^63`, so that no sum wraps in `int`, `medianIndex` returns a
position in the central region, on the lower side: `medianIndex ≤ (n - 1) / 2`.  In
particular `medianIndex [1,1,1,1] = 1`, not 2. -/
theorem medianIndex_palindrome (values : List Int) (hne : values ≠ [])
    (hnn : ∀ v ∈ values, 0 ≤ v) (hpal : values.reverse = values)
    (hfit : values.sum < 2 ^ 63) :
    medianIndex values ≤ (values.length - 1) / 2 ∧ medianIndex [1, 1, 1, 1] = 1 := by
  refine ⟨?_, by decide⟩
  by_contra hgt
  have hlt : (values.length - 1) / 2 < medianIndex values := by omega
  have hbelow := medianIndex_below values hnn hfit _ hlt
  have hT := sum_nonneg_of_nonneg values hnn
  rw [tdiv_two_eq _ hT] at hbelow
  unfold cumSum at hbelow
  have hlen : 0 < values.length := List.length_pos.mpr hne
  have hk : values.length - ((values.length - 1) / 2 + 1) ≤ (values.length - 1) / 2 + 1 := by
    omega
  have h1 := palindrome_take_sum values hpal ((values.length - 1) / 2 + 1)
  have h2 := List.sum_take_add_sum_drop values (values.length - ((values.length - 1) / 2 + 1))
  have h3 := sum_take_mono values hnn _ _ hk
  omega

theorem medianIndex_palindrome_witness :
    (([2, 0, 3, 0, 2] : List Int) ≠ [] ∧ (∀ v ∈ ([2, 0, 3, 0, 2] : List Int), 0 ≤ v) ∧
      ([2, 0, 3, 0, 2] : List Int).reverse = [2, 0, 3, 0, 2] ∧
      ([2, 0, 3, 0, 2] : List Int).sum < 2 ^ 63) ∧
    (medianIndex [2, 0, 3, 0, 2] ≤ (([2, 0, 3, 0, 2] : List Int).length - 1) / 2 ∧
      medianIndex [1, 1, 1, 1] = 1) :=
  ⟨⟨by decide, by decide, by decide, by decide⟩,
    medianIndex_palindrome [2, 0, 3, 0, 2] (by decide) (by decide) (by decide) (by decide)⟩

/-- C13 (counterexample): in `[-2^63, -1, -1]` no inclusive sum of the first entries,
`-2^63`, `-2^63 - 1`, `-2^63 - 2`, reaches half of the sum of all entries, yet
`medianIndex` returns 1, not the last position 2: in `int` the second running sum wraps
to `2^63 - 1` and the `break` fires. -/
theorem medianIndex_never_reached_counterexample :
    ([-9223372036854775808, -1, -1] : List Int) ≠ [] ∧
    (∀ v ∈ ([-9223372036854775808, -1, -1] : List Int),
      -9223372036854775808 ≤ v ∧ v ≤ 9223372036854775807) ∧
    (∀ j, j < ([-9223372036854775808, -1, -1] : List Int).length →
      cumSum [-9223372036854775808, -1, -1] j
        < Int.tdiv ([-9223372036854775808, -1, -1] : List Int).sum 2) ∧
    medianIndex [-9223372036854775808, -1, -1] = 1 ∧
    ¬ (medianIndex [-9223372036854775808, -1, -1]
        = ([-9223372036854775808, -1, -1] : List Int).length - 1) := by
  decide

/-- C13 (amended): on a non-empty sequence of integers, negative entries allowed, in which
no inclusive running sum as the code computes it, in wrapping `int` arithmetic, reaches
`half = total / 2` (the total computed likewise, the division truncating toward zero),
that is, the `break` never fires, `medianIndex` returns the last valid position
`len - 1`. -/
theorem medianIndex_never_reached (values : List Int) (hne : values ≠ [])
    (hnever : ∀ j, j < values.length →
      runSum 0 (values.take (j + 1)) < Int.tdiv (runSum 0 values) 2) :
    medianIndex values = values.length - 1 := by
  rw [medianIndex_eq, medianScan_exhaust (Int.tdiv (runSum 0 values) 2) values 0 0 0 hne hnever]
  simp

/-- In `[-5, -2]` both running sums, `-5` and `-7`, stay below `half = -3`. -/
theorem never_reached_example (j : Nat) (hj : j < ([-5, -2] : List Int).length) :
    runSum 0 (([-5, -2] : List Int).take (j + 1)) < Int.tdiv (runSum 0 [-5, -2]) 2 := by
  simp only [List.length_cons, List.length_nil] at hj
  interval_cases j <;> decide

theorem medianIndex_never_reached_witness :
    ([-5, -2] : List Int) ≠ [] ∧ medianIndex [-5, -2] = ([-5, -2] : List Int).length - 1 :=
  ⟨by decide, medianIndex_never_reached [-5, -2] (by decide) never_reached_example⟩

theorem columnCount_le (img : Image) (ref : Color) (x : Int) :
    columnCount img ref x ≤ img.height.toNat := by
  unfold columnCount Image.height
  calc _ ≤ (Finset.Ico img.Bounds.Min.Y img.Bounds.Max.Y).card := Finset.card_filter_le _ _
    _ = (img.Bounds.Max.Y - img.Bounds.Min.Y).toNat := Int.card_Ico _ _

theorem rowCount_le (img : Image) (ref : Color) (y : Int) :
    rowCount img ref y ≤ img.width.toNat := by
  unfold rowCount Image.width
  calc _ ≤ (Finset.Ico img.Bounds.Min.X img.Bounds.Max.X).card := Finset.card_filter_le _ _
    _ = (img.Bounds.Max.X - img.Bounds.Min.X).toNat := Int.card_Ico _ _

/-- C14: for every grid (bounds well-formed in Go's sense, `Min ≤ Max` on both axes) and
every reference colour, every entry of `calcHoriz` is between 0 and the height of the grid
inclusive, and every entry of `calcVerti` is between 0 and the width inclusive. -/
theorem projection_entries_bounded (img : Image) (ref : Color)
    (hwf : img.Bounds.Min.X ≤ img.Bounds.Max.X ∧ img.Bounds.Min.Y ≤ img.Bounds.Max.Y) :
    (∀ v ∈ calcHoriz img ref, 0 ≤ v ∧ v ≤ img.height) ∧
    (∀ v ∈ calcVerti img ref, 0 ≤ v ∧ v ≤ img.width) := by
  constructor
  · intro v hv
    refine ⟨calcHoriz_nonneg img ref v hv, ?_⟩
    rw [calcHoriz_eq] at hv
    obtain ⟨k, _, rfl⟩ := List.mem_map.mp hv
    have := columnCount_le img ref (img.Bounds.Min.X + (k : Int))
    unfold Image.height at this ⊢
    omega
  · intro v hv
    refine ⟨calcVerti_nonneg img ref v hv, ?_⟩
    rw [calcVerti_eq] at hv
    obtain ⟨k, _, rfl⟩ := List.mem_map.mp hv
    have := rowCount_le img ref (img.Bounds.Min.Y + (k : Int))
    unfold Image.width at this ⊢
    omega

theorem projection_entries_bounded_witness :
    (dotGrid.Bounds.Min.X ≤ dotGrid.Bounds.Max.X ∧
      dotGrid.Bounds.Min.Y ≤ dotGrid.Bounds.Max.Y) ∧
    ((∀ v ∈ calcHoriz dotGrid white, 0 ≤ v ∧ v ≤ dotGrid.height) ∧
    (∀ v ∈ calcVerti dotGrid white, 0 ≤ v ∧ v ≤ dotGrid.width)) :=
  ⟨by decide, projection_entries_bounded dotGrid white (by decide)⟩

/-- C15: for every grid and every reference colour, the entries of `calcHoriz` and the
entries of `calcVerti` have the same sum, the number of in-bounds pixels that differ from
the reference, so the two `medianIndex` calls of `medianPoint` compute the same `half`,
with exact sums and with the sums as `medianIndex` computes them in `int`. -/
theorem projections_same_total (img : Image) (ref : Color) :
    (calcHoriz img ref).sum = (calcVerti img ref).sum ∧
    (calcHoriz img ref).sum = ((differing img ref).card : Int) ∧
    (calcVerti img ref).sum = ((differing img ref).card : Int) ∧
    Int.tdiv ((calcHoriz img (img.At 0 0)).foldl (fun sum val => sum + val) 0) 2
      = Int.tdiv ((calcVerti img (img.At 0 0)).foldl (fun sum val => sum + val) 0) 2 ∧
    Int.tdiv ((calcHoriz img (img.At 0 0)).foldl (fun sum val => wrapInt (sum + val)) 0) 2
      = Int.tdiv ((calcVerti img (img.At 0 0)).foldl
          (fun sum val => wrapInt (sum + val)) 0) 2 := by
  refine ⟨?_, calcHoriz_sum img ref, calcVerti_sum img ref, ?_, ?_⟩
  · rw [calcHoriz_sum, calcVerti_sum]
  · rw [foldl_add_eq_sum, foldl_add_eq_sum, calcHoriz_sum, calcVerti_sum]
  · have hH := runSum_zero (calcHoriz img (img.At 0 0))
    have hV := runSum_zero (calcVerti img (img.At 0 0))
    unfold runSum at hH hV
    rw [hH, hV, calcHoriz_sum, calcVerti_sum]

/-- C16: on a non-empty sequence of non-negative integers whose total is at most 1,
`medianIndex` returns 0, wherever the single unit of mass is: `half = 0` is already
reached at position 0. -/
theorem medianIndex_unit_mass (values : List Int) (_hne : values ≠ [])
    (hnn : ∀ v ∈ values, 0 ≤ v) (hsum : values.sum ≤ 1) :
    medianIndex values = 0 :=
  medianIndex_eq_zero_of_sum_le_one values hnn hsum

theorem medianIndex_unit_mass_witness :
    (([0, 0, 0, 1] : List Int) ≠ [] ∧ (∀ v ∈ ([0, 0, 0, 1] : List Int), 0 ≤ v) ∧
      ([0, 0, 0, 1] : List Int).sum ≤ 1) ∧
    medianIndex [0, 0, 0, 1] = 0 :=
  ⟨⟨by decide, by decide, by decide⟩,
    medianIndex_unit_mass [0, 0, 0, 1] (by decide) (by decide) (by decide)⟩

/-- C17: `medianIndex` of the empty sequence returns 0, the initial value of `index`;
the scan does nothing and nothing fails, although 0 is not a valid position of the empty
sequence. -/
theorem medianIndex_empty :
    medianIndex [] = 0 ∧ ¬ (medianIndex [] < ([] : List Int).length) := by
  decide

/-! ## The marker drawn by `drawCross` -/

theorem contains_iff (r : Rectangle) (x y : Int) :
    r.contains x y = true ↔ r.Min.X ≤ x ∧ x < r.Max.X ∧ r.Min.Y ≤ y ∧ y < r.Max.Y := by
  simp [Rectangle.contains, and_assoc]

theorem Set_Bounds (d : Image) (x y : Int) (c : Color) : (d.Set x y c).Bounds = d.Bounds := by
  unfold Image.Set
  split <;> rfl

theorem Set_At (d : Image) (x y : Int) (c : Color) (u v : Int) :
    (d.Set x y c).At u v
      = if d.Bounds.contains x y = true ∧ u = x ∧ v = y then c else d.At u v := by
  unfold Image.Set
  by_cases h : d.Bounds.contains x y = true
  · simp [h]
  · simp [h]

/-- The loop along the horizontal axis blackens the in-bounds pixels of its range. -/
theorem hLoop_spec (Y hi : Int) (c : Color) :
    ∀ (n : Nat) (lo : Int) (d : Image), (hi - lo).toNat = n →
      (forLoop lo hi (fun x dst => dst.Set x Y c) d).Bounds = d.Bounds ∧
      ∀ u v, (forLoop lo hi (fun x dst => dst.Set x Y c) d).At u v
        = if d.Bounds.contains u v = true ∧ v = Y ∧ lo ≤ u ∧ u < hi then c else d.At u v := by
  intro n
  induction n with
  | zero =>
    intro lo d hn
    rw [forLoop_done _ _ _ _ (by omega)]
    refine ⟨rfl, ?_⟩
    intro u v
    rw [if_neg (by omega)]
  | succ m ih =>
    intro lo d hn
    have hlt : lo < hi := by omega
    rw [forLoop_step _ _ _ _ hlt]
    obtain ⟨hb, hat⟩ := ih (lo + 1) (d.Set lo Y c) (by omega)
    refine ⟨by rw [hb, Set_Bounds], ?_⟩
    intro u v
    rw [hat u v, Set_Bounds, Set_At]
    by_cases hc : d.Bounds.contains u v = true
    · by_cases h1 : v = Y ∧ lo + 1 ≤ u ∧ u < hi
      · rw [if_pos ⟨hc, h1⟩, if_pos ⟨hc, h1.1, by omega, h1.2.2⟩]
      · rw [if_neg (fun h => h1 h.2)]
        by_cases h2 : u = lo ∧ v = Y
        · obtain ⟨rfl, rfl⟩ := h2
          rw [if_pos ⟨hc, rfl, rfl⟩, if_pos ⟨hc, rfl, le_refl _, hlt⟩]
        · rw [if_neg (fun h => h2 h.2), if_neg]
          rintro ⟨_, hv, h3, h4⟩
          by_cases h5 : u = lo
          · exact h2 ⟨h5, hv⟩
          · exact h1 ⟨hv, by omega, h4⟩
    · have e1 : ¬ (d.Bounds.contains u v = true ∧ v = Y ∧ lo + 1 ≤ u ∧ u < hi) :=
        fun h => hc h.1
      have e2 : ¬ (d.Bounds.contains u v = true ∧ v = Y ∧ lo ≤ u ∧ u < hi) :=
        fun h => hc h.1
      have e3 : ¬ (d.Bounds.contains lo Y = true ∧ u = lo ∧ v = Y) := by
        rintro ⟨h1, rfl, rfl⟩
        exact hc h1
      rw [if_neg e1, if_neg e2, if_neg e3]

/-- The loop along the vertical axis blackens the in-bounds pixels of its range. -/
theorem vLoop_spec (X hi : Int) (c : Color) :
    ∀ (n : Nat) (lo : Int) (d : Image), (hi - lo).toNat = n →
      (forLoop lo hi (fun y dst => dst.Set X y c) d).Bounds = d.Bounds ∧
      ∀ u v, (forLoop lo hi (fun y dst => dst.Set X y c) d).At u v
        = if d.Bounds.contains u v = true ∧ u = X ∧ lo ≤ v ∧ v < hi then c else d.At u v := by
  intro n
  induction n with
  | zero =>
    intro lo d hn
    rw [forLoop_done _ _ _ _ (by omega)]
    refine ⟨rfl, ?_⟩
    intro u v
    rw [if_neg (by omega)]
  | succ m ih =>
    intro lo d hn
    have hlt : lo < hi := by omega
    rw [forLoop_step _ _ _ _ hlt]
    obtain ⟨hb, hat⟩ := ih (lo + 1) (d.Set X lo c) (by omega)
    refine ⟨by rw [hb, Set_Bounds], ?_⟩
    intro u v
    rw [hat u v, Set_Bounds, Set_At]
    by_cases hc : d.Bounds.contains u v = true
    · by_cases h1 : u = X ∧ lo + 1 ≤ v ∧ v < hi
      · rw [if_pos ⟨hc, h1⟩, if_pos ⟨hc, h1.1, by omega, h1.2.2⟩]
      · rw [if_neg (fun h => h1 h.2)]
        by_cases h2 : u = X ∧ v = lo
        · obtain ⟨rfl, rfl⟩ := h2
          rw [if_pos ⟨hc, rfl, rfl⟩, if_pos ⟨hc, rfl, le_refl _, hlt⟩]
        · rw [if_neg (fun h => h2 h.2), if_neg]
          rintro ⟨_, hu, h3, h4⟩
          by_cases h5 : v = lo
          · exact h2 ⟨hu, h5⟩
          · exact h1 ⟨hu, by omega, h4⟩
    · have e1 : ¬ (d.Bounds.contains u v = true ∧ u = X ∧ lo + 1 ≤ v ∧ v < hi) :=
        fun h => hc h.1
      have e2 : ¬ (d.Bounds.contains u v = true ∧ u = X ∧ lo ≤ v ∧ v < hi) :=
        fun h => hc h.1
      have e3 : ¬ (d.Bounds.contains X lo = true ∧ u = X ∧ v = lo) := by
        rintro ⟨h1, rfl, rfl⟩
        exact hc h1
      rw [if_neg e1, if_neg e2, if_neg e3]

theorem tdiv_sixteen_eq (t : Int) (h : 0 ≤ t) : Int.tdiv t 16 = t / 16 :=
  Int.tdiv_eq_ediv h (by decide)

/-- C18 (counterexample): two images on which the pixels written as black are not the
in-bounds pixels of the two arms.  On `hugeGrid` (2^31 × 2^31) `image.NewRGBA` panics,
so no image is produced, although `(0, 0)` is an in-bounds pixel of the arms around
`(0, 0)`.  On `edgeGrid` (32×16, right edge at `2^63 - 1`) with `p = (2^63 - 2, 3)` the
end `p.X + hSize` of the horizontal arm wraps to `-2^63`, the first loop does not run,
and the in-bounds pixel `(2^63 - 3, 3)` of the horizontal arm keeps the sample of the
copy, which is the zero colour there, not black. -/
theorem drawCross_writes_counterexample :
    ((0 ≤ hugeGrid.width ∧ 0 ≤ hugeGrid.height) ∧
      (inBounds hugeGrid 0 0 ∧
        onCross ⟨0, 0⟩ (hugeGrid.width / 16) (hugeGrid.height / 16) 0 0) ∧
      (drawCross allocAny drawOver hugeGrid ⟨0, 0⟩).isNone = true) ∧
    ((0 ≤ edgeGrid.width ∧ 0 ≤ edgeGrid.height) ∧
      (inBounds edgeGrid 9223372036854775805 3 ∧
        onCross ⟨9223372036854775806, 3⟩ (edgeGrid.width / 16) (edgeGrid.height / 16)
          9223372036854775805 3) ∧
      (drawCross allocAny drawOver edgeGrid ⟨9223372036854775806, 3⟩).map
          (fun dst => dst.At 9223372036854775805 3)
        = some (copied drawOver edgeGrid 9223372036854775805 3) ∧
      copied drawOver edgeGrid 9223372036854775805 3 ≠ Black) := by
  decide

/-- C18 (amended): for every image whose bounds are well-formed and for which
`image.NewRGBA` succeeds (the sides and the buffer length `4 * width * height` fit in
`int`, and the buffer can be allocated), and every point `p` for which the ends of the
arms `p.X ± hSize` and `p.Y ± vSize` fit in `int`, with `hSize = width / 16` and
`vSize = height / 16` (integer division), `drawCross` returns an image with the same
bounds in which the pixels written as black are exactly the in-bounds pixels `(x, p.Y)`
with `p.X - hSize ≤ x < p.X + hSize` together with the in-bounds pixels `(p.X, y)` with
`p.Y - vSize ≤ y < p.Y + vSize`; every other sample is the one of the copy.  In
particular, when `width < 16` and `height < 16` no pixel is written. -/
theorem drawCross_writes (alloc : Int → Bool)
    (Draw : Image → Rectangle → Image → Point → Int → Int → Color)
    (img : Image) (p : Point) (hwf : 0 ≤ img.width ∧ 0 ≤ img.height)
    (hbuf : (img.width < 2 ^ 62 ∧ img.height < 2 ^ 63) ∧
      4 * img.width * img.height < 2 ^ 63 ∧ alloc (4 * img.width * img.height) = true)
    (harm : (-2 ^ 63 ≤ p.X - img.width / 16 ∧ p.X + img.width / 16 < 2 ^ 63) ∧
      (-2 ^ 63 ≤ p.Y - img.height / 16 ∧ p.Y + img.height / 16 < 2 ^ 63)) :
    ∃ dst, drawCross alloc Draw img p = some dst ∧ dst.Bounds = img.Bounds ∧
      (∀ x y, dst.At x y =
        if inBounds img x y ∧ onCross p (img.width / 16) (img.height / 16) x y then Black
        else copied Draw img x y) ∧
      (img.width < 16 → img.height < 16 → ∀ x y, dst.At x y = copied Draw img x y) := by
  obtain ⟨hw, hh⟩ := hwf
  obtain ⟨⟨hb1, hb2⟩, hb3, hb4⟩ := hbuf
  obtain ⟨⟨hx1, hx2⟩, hy1, hy2⟩ := harm
  have hwX : wrapInt (img.Bounds.Max.X - img.Bounds.Min.X) = img.width :=
    wrapInt_of_fits _ (by unfold Image.width at hw; omega)
      (by unfold Image.width at hb1; omega)
  have hhY : wrapInt (img.Bounds.Max.Y - img.Bounds.Min.Y) = img.height :=
    wrapInt_of_fits _ (by unfold Image.height at hh; omega)
      (by unfold Image.height at hb2; omega)
  have hS : Int.tdiv (wrapInt (img.Bounds.Max.X - img.Bounds.Min.X)) 16 = img.width / 16 := by
    rw [hwX]
    exact tdiv_sixteen_eq _ hw
  have vS : Int.tdiv (wrapInt (img.Bounds.Max.Y - img.Bounds.Min.Y)) 16 = img.height / 16 := by
    rw [hhY]
    exact tdiv_sixteen_eq _ hh
  have ex1 : wrapInt (p.X - img.width / 16) = p.X - img.width / 16 :=
    wrapInt_of_fits _ hx1 (by omega)
  have ex2 : wrapInt (p.X + img.width / 16) = p.X + img.width / 16 :=
    wrapInt_of_fits _ (by omega) hx2
  have ey1 : wrapInt (p.Y - img.height / 16) = p.Y - img.height / 16 :=
    wrapInt_of_fits _ hy1 (by omega)
  have ey2 : wrapInt (p.Y + img.height / 16) = p.Y + img.height / 16 :=
    wrapInt_of_fits _ (by omega) hy2
  have hnew : NewRGBA alloc img.Bounds
      = some { Bounds := img.Bounds, At := fun _ _ => ⟨0, 0, 0, 0⟩ } := by
    unfold NewRGBA
    simp only [hwX, hhY]
    rw [if_neg (by omega), if_pos hb4]
  have hframe : ∀ (d0 : Image) (x y : Int), d0.Bounds = img.Bounds →
      (forLoop (p.Y - img.height / 16) (p.Y + img.height / 16)
        (fun y dst => dst.Set p.X y Black)
        (forLoop (p.X - img.width / 16) (p.X + img.width / 16)
          (fun x dst => dst.Set x p.Y Black) d0)).At x y =
        if inBounds img x y ∧ onCross p (img.width / 16) (img.height / 16) x y then Black
        else d0.At x y := by
    intro d0 x y hb0
    obtain ⟨hb1, hat1⟩ := hLoop_spec p.Y (p.X + img.width / 16) Black _
      (p.X - img.width / 16) d0 rfl
    obtain ⟨_, hat2⟩ := vLoop_spec p.X (p.Y + img.height / 16) Black _
      (p.Y - img.height / 16) _ rfl
    rw [hat2 x y, hat1 x y, hb1, hb0]
    have hin : img.Bounds.contains x y = true ↔ inBounds img x y := contains_iff _ _ _
    unfold onCross
    by_cases hc : inBounds img x y
    · by_cases hv : x = p.X ∧ p.Y - img.height / 16 ≤ y ∧ y < p.Y + img.height / 16
      · rw [if_pos ⟨hin.mpr hc, hv⟩, if_pos ⟨hc, Or.inr hv⟩]
      · rw [if_neg (fun h => hv h.2)]
        by_cases hx : y = p.Y ∧ p.X - img.width / 16 ≤ x ∧ x < p.X + img.width / 16
        · rw [if_pos ⟨hin.mpr hc, hx⟩, if_pos ⟨hc, Or.inl hx⟩]
        · rw [if_neg (fun h => hx h.2), if_neg]
          rintro ⟨_, h | h⟩
          · exact hx h
          · exact hv h
    · rw [if_neg (fun h => hc (hin.mp h.1)), if_neg (fun h => hc (hin.mp h.1)),
        if_neg (fun h => hc h.1)]
  have hcopy : ∀ x y, (⟨img.Bounds, Draw { Bounds := img.Bounds, At := fun _ _ => ⟨0, 0, 0, 0⟩ }
      img.Bounds img { X := 0, Y := 0 }⟩ : Image).At x y = copied Draw img x y :=
    fun _ _ => rfl
  refine ⟨forLoop (p.Y - img.height / 16) (p.Y + img.height / 16)
      (fun y dst => dst.Set p.X y Black)
      (forLoop (p.X - img.width / 16) (p.X + img.width / 16)
        (fun x dst => dst.Set x p.Y Black)
        ⟨img.Bounds, Draw { Bounds := img.Bounds, At := fun _ _ => ⟨0, 0, 0, 0⟩ }
          img.Bounds img { X := 0, Y := 0 }⟩), ?_, ?_, ?_, ?_⟩
  · simp only [drawCross, hnew, hS, vS, ex1, ex2, ey1, ey2]
  · obtain ⟨hb1, _⟩ := hLoop_spec p.Y (p.X + img.width / 16) Black _
      (p.X - img.width / 16)
      ⟨img.Bounds, Draw { Bounds := img.Bounds, At := fun _ _ => ⟨0, 0, 0, 0⟩ }
        img.Bounds img { X := 0, Y := 0 }⟩ rfl
    obtain ⟨hb2, _⟩ := vLoop_spec p.X (p.Y + img.height / 16) Black _
      (p.Y - img.height / 16)
      (forLoop (p.X - img.width / 16) (p.X + img.width / 16)
        (fun x dst => dst.Set x p.Y Black)
        ⟨img.Bounds, Draw { Bounds := img.Bounds, At := fun _ _ => ⟨0, 0, 0, 0⟩ }
          img.Bounds img { X := 0, Y := 0 }⟩) rfl
    rw [hb2, hb1]
  · intro x y
    rw [hframe (⟨img.Bounds, Draw { Bounds := img.Bounds, At := fun _ _ => ⟨0, 0, 0, 0⟩ }
      img.Bounds img { X := 0, Y := 0 }⟩ : Image) x y rfl, hcopy]
  · intro hw16 hh16 x y
    rw [hframe (⟨img.Bounds, Draw { Bounds := img.Bounds, At := fun _ _ => ⟨0, 0, 0, 0⟩ }
      img.Bounds img { X := 0, Y := 0 }⟩ : Image) x y rfl, hcopy, if_neg]
    unfold onCross
    have e1 : img.width / 16 = 0 := by omega
    have e2 : img.height / 16 = 0 := by omega
    rw [e1, e2]
    omega

theorem drawCross_writes_witness :
    ((0 ≤ wideGrid.width ∧ 0 ≤ wideGrid.height) ∧
      ((wideGrid.width < 2 ^ 62 ∧ wideGrid.height < 2 ^ 63) ∧
        4 * wideGrid.width * wideGrid.height < 2 ^ 63 ∧
        allocAny (4 * wideGrid.width * wideGrid.height) = true) ∧
      ((-2 ^ 63 ≤ (5 : Int) - wideGrid.width / 16 ∧ (5 : Int) + wideGrid.width / 16 < 2 ^ 63) ∧
        (-2 ^ 63 ≤ (3 : Int) - wideGrid.height / 16 ∧
          (3 : Int) + wideGrid.height / 16 < 2 ^ 63))) ∧
    ∃ dst, drawCross allocAny drawOver wideGrid ⟨5, 3⟩ = some dst ∧
      dst.Bounds = wideGrid.Bounds ∧
      (∀ x y, dst.At x y =
        if inBounds wideGrid x y ∧
          onCross ⟨5, 3⟩ (wideGrid.width / 16) (wideGrid.height / 16) x y then Black
        else copied drawOver wideGrid x y) ∧
      (wideGrid.width < 16 → wideGrid.height < 16 →
        ∀ x y, dst.At x y = copied drawOver wideGrid x y) :=
  ⟨⟨by decide, by decide, by decide⟩,
    drawCross_writes allocAny drawOver wideGrid ⟨5, 3⟩ (by decide) (by decide) (by decide)⟩

end Geomedian
